import Mathlib

/-!
Verification of the Job-Matcher live matching pipeline against its
natural-language specification.

The frontend client code (`src/frontend/src/lib/jobs.ts`,
`src/frontend/src/services/api.ts`, `src/frontend/src/types/job.ts`) is
embedded directly from the TypeScript source.  The backend job-finder
service (Scorer, Aggregator, Posting Store, Orchestrator, Cache Refresher)
is described only by its README and the specification; those components
are modelled from the spec, with each such definition marked
`Modelled from the spec:`.
-/

namespace JobMatcher

/-! ## Data model (spec §3, README schema) -/

/-- Modelled from the spec: the normalized `JobPosting` shape (§3).  The
backend service code is not in the repository; fields follow §3 and the
README's `cached_jobs` schema.  Timestamps are integers (epoch), the
embedding is consumed opaquely, skills are the extracted normalized token
set, and `seniority` is the optional seniority signal used by the
experience-alignment heuristic. -/
structure Posting where
  source_name : String
  source_native_id : String
  title : String
  company : String
  location : String
  apply_url : String
  posted_at : Int
  skills : Finset String
  seniority : Option Nat
deriving DecidableEq

/-- Modelled from the spec: the query-side `ResumeProfile` (§3): a set of
normalized skill tokens plus an optional seniority signal; the embedding
itself is opaque and enters scoring only through its cosine similarity. -/
structure Resume where
  skills : Finset String
  seniority : Option Nat
deriving DecidableEq

/-! ## Scorer (spec §4.6) — modelled from the spec -/

/-- Modelled from the spec: `skill_overlap_ratio = |resume.skills ∩
posting.skills| / max(1, |posting.skills|)` (§4.6). -/
def skillOverlapRatio (resumeSkills postingSkills : Finset String) : ℚ :=
  ((resumeSkills ∩ postingSkills).card : ℚ) / ((max 1 postingSkills.card : ℕ) : ℚ)

/-- Modelled from the spec: the experience-alignment heuristic (§4.6, §9
open question).  It is a bounded [0,1] comparison of stated seniority
terms, defaulting to a neutral 1/2 when either side lacks a signal; the
exact both-signals-present formula is an implementation choice, taken
here as 1 on agreement and 1/4 on disagreement. -/
def experienceAlignment (r p : Option Nat) : ℚ :=
  match r, p with
  | some a, some b => if a = b then 1 else 1/4
  | _, _ => 1/2

/-- Modelled from the spec: the Scorer's combination (§4.6):
`match_score = 0.6·cosine_similarity + 0.3·skill_overlap_ratio +
0.1·experience_alignment`.  The cosine similarity of the two embeddings
is passed in as `cosSim` (the embedding capability is an external
collaborator, §1). -/
def score (resume : Resume) (p : Posting) (cosSim : ℚ) : ℚ :=
  6/10 * cosSim + 3/10 * skillOverlapRatio resume.skills p.skills
    + 1/10 * experienceAlignment resume.seniority p.seniority

/-! ## Ranking and the Live Query Orchestrator (spec §4.6, §4.7) —
modelled from the spec -/

/-- A scored posting: the transient `MatchResult` pair of a posting and
its `match_score` (§3). -/
structure ScoredPosting where
  posting : Posting
  match_score : ℚ
deriving DecidableEq

/-- Modelled from the spec: the result order of §4.6 — `a` may precede `b`
iff `a` scores strictly higher, or they tie and `a` was posted no earlier
(ties break by `posted_at` descending, preferring fresher postings). -/
def Ranked (a b : ScoredPosting) : Prop :=
  b.match_score < a.match_score
    ∨ (a.match_score = b.match_score ∧ b.posting.posted_at ≤ a.posting.posted_at)

instance (a b : ScoredPosting) : Decidable (Ranked a b) := by
  unfold Ranked
  infer_instance

/-- Insertion step of the ranking sort. -/
def insertRanked (x : ScoredPosting) : List ScoredPosting → List ScoredPosting
  | [] => [x]
  | y :: ys => if Ranked x y then x :: y :: ys else y :: insertRanked x ys

/-- Modelled from the spec: the final sort of §4.6 (`match_score`
descending, ties by `posted_at` descending), as an insertion sort. -/
def sortRanked : List ScoredPosting → List ScoredPosting
  | [] => []
  | x :: xs => insertRanked x (sortRanked xs)

/-- Modelled from the spec: the `VALIDATE` stage of §4.7 with the
fallback of §8 — walk the ranked list, keeping postings whose `apply_url`
validates, until `limit` results are collected; invalid postings are
skipped and replaced by the next-highest-scored valid ones. -/
def collectValid (valid : Posting → Bool) : Nat → List ScoredPosting → List ScoredPosting
  | _, [] => []
  | 0, _ :: _ => []
  | n + 1, x :: xs =>
    if valid x.posting then x :: collectValid valid n xs
    else collectValid valid (n + 1) xs

/-- Modelled from the spec: the Orchestrator's scoring-and-response path
(§4.7): score each candidate (a posting paired with the cosine similarity
of its embedding to the resume's), drop those below
`MIN_SIMILARITY_THRESHOLD`, sort by rank, then — outside debug/bypass
mode — keep only URL-validated postings, falling back past invalid ones,
up to `limit`. -/
def liveResults (resume : Resume) (candidates : List (Posting × ℚ))
    (valid : Posting → Bool) (debug : Bool) (limit : Nat) (threshold : ℚ) :
    List ScoredPosting :=
  let scored := candidates.map fun pc => ScoredPosting.mk pc.1 (score resume pc.1 pc.2)
  let kept := scored.filter fun s => threshold ≤ s.match_score
  let sorted := sortRanked kept
  if debug then sorted.take limit else collectValid valid limit sorted

/-- Outcome of a live request: either a (possibly empty) ranked result
list, or the explicit "no results available" outcome of §7 (no source
reachable and no usable cache).  An empty `results` list is the distinct
"zero matches found" outcome. -/
inductive LiveOutcome where
  | results : List ScoredPosting → LiveOutcome
  | noResultsAvailable : LiveOutcome
deriving DecidableEq

/-- Modelled from the spec: the Orchestrator's whole-request behavior
(§4.7, §7).  Each source fetch yields `some` candidate postings or `none`
on failure; failed sources contribute nothing.  If every source failed
and the Posting Store cache is empty, the request reports the explicit
`noResultsAvailable` outcome; otherwise it proceeds to scoring over
whatever was fetched plus the (possibly stale) cache. -/
def orchestrate (resume : Resume) (sources : List (Option (List (Posting × ℚ))))
    (cache : List (Posting × ℚ)) (valid : Posting → Bool) (debug : Bool)
    (limit : Nat) (threshold : ℚ) : LiveOutcome :=
  let fetched := (sources.filterMap id).flatten
  if sources.all Option.isNone && cache.isEmpty then LiveOutcome.noResultsAvailable
  else LiveOutcome.results (liveResults resume (fetched ++ cache) valid debug limit threshold)

/-- A concrete posting used to instantiate theorems on concrete inputs. -/
def mkPosting (src nid title company location url : String) (ts : Int) : Posting :=
  ⟨src, nid, title, company, location, url, ts, ∅, none⟩

/-- Concrete scenario: the top-scored posting whose apply link is dead. -/
def pDead : Posting := mkPosting "g" "a" "A" "X" "R" "dead" 1

/-- Concrete scenario: the next-highest-scored posting, with a live link. -/
def pLiveB : Posting := mkPosting "g" "b" "B" "X" "R" "https://b" 2

/-- Concrete scenario: a further valid posting, scored lower still. -/
def pLiveC : Posting := mkPosting "g" "c" "C" "X" "R" "https://c" 3

/-- Concrete URL-validation outcome for the scenario: every link except
the literal "dead" one validates. -/
def deadValid : Posting → Bool := fun p => p.apply_url ≠ "dead"

/-! ## Aggregator (spec §4.2, §3 invariant) — modelled from the spec -/

/-- Word-splitting helper: the maximal runs of non-whitespace characters
(the current partial word is carried reversed). -/
def wordsAux (cur : List Char) : List Char → List (List Char)
  | [] => if cur.isEmpty then [] else [cur.reverse]
  | c :: cs =>
    if c.isWhitespace then
      if cur.isEmpty then wordsAux [] cs else cur.reverse :: wordsAux [] cs
    else wordsAux (c :: cur) cs

/-- Modelled from the spec: the whitespace/case normalization of §4.2 —
the lower-cased maximal words of the text, so two texts normalize equal
iff they agree up to case and internal/surrounding whitespace. -/
def normalTokens (s : String) : List String :=
  (wordsAux [] (s.data.map Char.toLower)).map fun w => String.mk w

/-- Modelled from the spec: the cross-source dedup key of the §3
invariant — normalized `title|company|location`, represented as the
triple of normalized token lists. -/
def dedupKey (p : Posting) : List String × List String × List String :=
  (normalTokens p.title, normalTokens p.company, normalTokens p.location)

/-- One merge step of the Aggregator: insert `p` into the accumulated
list, collapsing with an existing posting of the same dedup key and
keeping the newer `posted_at`. -/
def mergeOne (p : Posting) : List Posting → List Posting
  | [] => [p]
  | q :: qs =>
    if dedupKey q = dedupKey p then
      (if q.posted_at < p.posted_at then p else q) :: qs
    else q :: mergeOne p qs

/-- Modelled from the spec: the Aggregator's merge/dedup over collected
postings (§4.2): collapse postings with equal dedup keys, keeping the
newest `posted_at` on collision. -/
def aggregate (ps : List Posting) : List Posting :=
  ps.foldl (fun acc p => mergeOne p acc) []

/-- Concrete scenario posting (§8): "Backend Engineer" at "Acme Corp" in
"Remote" from one source, posted 2024-01-01. -/
def acmeOld : Posting :=
  mkPosting "greenhouse" "x1" "Backend Engineer" "Acme Corp" "Remote" "https://a1" 20240101

/-- Concrete scenario posting: the same job from a second source, spelled
with different case and whitespace, posted 2024-01-05. -/
def acmeNew : Posting :=
  mkPosting "lever" "x2" "backend  ENGINEER" "acme corp" "REMOTE" "https://a2" 20240105

/-! ## Posting Store (spec §4.5) — modelled from the spec -/

/-- Modelled from the spec: the store's upsert key — `source_id` (source
name + source-native id, §3), the dedup key §4.5's upsert is keyed by
(present on every stored posting, README schema `id`). -/
def storeKey (p : Posting) : String :=
  p.source_name ++ "_" ++ p.source_native_id

/-- A persisted Posting Store record: the posting content plus the
freshness metadata `cached_at` and `last_verified` (§3, README schema). -/
structure StoredPosting where
  content : Posting
  cached_at : Int
  last_verified : Int
deriving DecidableEq

/-- Modelled from the spec: the Posting Store's upsert of one posting at
time `now` (§4.5): a new key inserts a record stamped `cached_at = now`
(and `last_verified = now`, README schema defaults); re-upserting
identical content is a no-op for `cached_at` but refreshes
`last_verified` when URL validation ran; changed content under the same
key replaces the content and restamps `cached_at`. -/
def upsertStore (p : Posting) (now : Int) (validationRan : Bool) :
    List StoredPosting → List StoredPosting
  | [] => [⟨p, now, now⟩]
  | r :: rs =>
    if storeKey r.content = storeKey p then
      (if r.content = p then
        ⟨r.content, r.cached_at, if validationRan then now else r.last_verified⟩
      else
        ⟨p, now, if validationRan then now else r.last_verified⟩) :: rs
    else r :: upsertStore p now validationRan rs

/-- Repeated upsert of the same posting at a sequence of
(timestamp, validation-ran) stamps. -/
def upsertTimes (p : Posting) (stamps : List (Int × Bool))
    (s : List StoredPosting) : List StoredPosting :=
  stamps.foldl (fun acc tv => upsertStore p tv.1 tv.2 acc) s

/-! ## Cache Refresher (spec §4.8) — modelled from the spec -/

/-- Refresher-plus-store state: the single-flight guard flag (§4.8, §9)
and the Posting Store contents. -/
structure RefresherState where
  running : Bool
  store : List StoredPosting
deriving DecidableEq

/-- Outcome reported by invoking the refresher (§6 `POST /jobs/refresh`,
§7 `RefreshAlreadyRunning`): started, or skipped because a previous run
is still active — a reported outcome, not an error. -/
inductive RefreshOutcome where
  | started : RefreshOutcome
  | skippedAlreadyRunning : RefreshOutcome
deriving DecidableEq

/-- Modelled from the spec: invoking the Cache Refresher (§4.8): if a
prior run is still in progress, the invocation is a no-op that reports
"skipped, previous run active" and leaves the store to the in-flight run;
otherwise it acquires the guard and performs the refresh work `doRun`
(aggregate → embed → upsert → prune) on the store. -/
def invokeRefresh (doRun : List StoredPosting → List StoredPosting)
    (s : RefresherState) : RefreshOutcome × RefresherState :=
  if s.running then (RefreshOutcome.skippedAlreadyRunning, s)
  else (RefreshOutcome.started, ⟨true, doRun s.store⟩)

/-! ## Frontend client (embedded from `src/frontend/src`) -/

/-- A raw job value as received from the API; `src/frontend/src/lib/jobs.ts`
(`normalizeJob`) reads these fields off an `any` value.  Each field is
`some` when present and non-null/undefined. -/
structure RawJob where
  id : Option String
  job_id : Option String
  title : Option String
  company : Option String
  organization : Option String
  location : Option String
  locations : Option String
  description : Option String
  job_type : Option String
  type : Option String
  salary_min : Option Int
  salary_max : Option Int
  remote : Option String
  apply_url : Option String
  applyUrl : Option String
  url : Option String
  job_url : Option String
  jobUrl : Option String
  source : Option String
  ats : Option String
deriving DecidableEq

/-- The normalized job record `normalizeJob` constructs
(`src/frontend/src/types/job.ts` `Job`, plus the extra fields the
returned object literal carries). -/
structure Job where
  id : Option String
  title : String
  company : String
  location : String
  description : String
  job_type : Option String
  salary_min : Option Int
  salary_max : Option Int
  remote : Option String
  apply_url : String
  source : Option String
deriving DecidableEq

/-- JS `a ?? b` on optional values: the first non-null/undefined operand. -/
def jsOr {α : Type} (a b : Option α) : Option α :=
  a.orElse fun _ => b

/-- The field read `raw?.f`: undefined when `raw` itself is
null/undefined. -/
def rawGet {α : Type} (raw : Option RawJob) (f : RawJob → Option α) : Option α :=
  raw.bind f

/-- Embedded from `src/frontend/src/lib/jobs.ts` (`normalizeJob`):
normalize an arbitrary raw API value into a `Job`; `apply_url` is the
first present one of `apply_url`, `applyUrl`, `url`, `job_url`,
`jobUrl` (else ""), and the textual fields default to "". -/
def normalizeJob (raw : Option RawJob) : Job :=
  { id := jsOr (rawGet raw RawJob.id) (rawGet raw RawJob.job_id)
    title := (rawGet raw RawJob.title).getD ""
    company := (jsOr (rawGet raw RawJob.company) (rawGet raw RawJob.organization)).getD ""
    location := (jsOr (rawGet raw RawJob.location) (rawGet raw RawJob.locations)).getD ""
    description := (rawGet raw RawJob.description).getD ""
    job_type := jsOr (rawGet raw RawJob.job_type) (rawGet raw RawJob.type)
    salary_min := rawGet raw RawJob.salary_min
    salary_max := rawGet raw RawJob.salary_max
    remote := rawGet raw RawJob.remote
    apply_url := (jsOr (rawGet raw RawJob.apply_url) (jsOr (rawGet raw RawJob.applyUrl)
      (jsOr (rawGet raw RawJob.url) (jsOr (rawGet raw RawJob.job_url)
        (rawGet raw RawJob.jobUrl))))).getD ""
    source := jsOr (rawGet raw RawJob.source) (rawGet raw RawJob.ats) }

/-- Spec-side helper for C9: the first present value among a list of
optional fields. -/
def firstSome {α : Type} : List (Option α) → Option α
  | [] => none
  | o :: os => o.orElse fun _ => firstSome os

/-- The options accepted by both client `fetchLiveJobs` implementations
(`src/frontend/src/lib/jobs.ts` and `src/frontend/src/services/api.ts`). -/
structure FetchOpts where
  resumeId : Option String
  resumeText : Option String
  location : Option String
  limit : Option Nat
  debug : Option Bool
deriving DecidableEq

/-- The JSON body POSTed to `/jobs/live`: `location`, `limit`, `debug`
are always present; `resume_id` and `resume_text` each only when set. -/
structure LiveBody where
  location : String
  limit : Nat
  debug : Bool
  resume_id : Option String
  resume_text : Option String
deriving DecidableEq

/-- JS truthiness of an optional string (the `opts.resumeId ? … : …`
test): false for undefined/null and for the empty string. -/
def truthyStr : Option String → Bool
  | some s => !(s == "")
  | none => false

/-- Embedded from `src/frontend/src/lib/jobs.ts` (`fetchLiveJobs`, body
construction): `location` defaults to "US", `limit` to 40, `debug` is
coerced to a boolean, and the body gets `resume_id` exactly when
`opts.resumeId` is truthy, else `resume_text` (defaulting to ""). -/
def buildLiveBody (opts : FetchOpts) : LiveBody :=
  { location := opts.location.getD "US"
    limit := opts.limit.getD 40
    debug := opts.debug.getD false
    resume_id := if truthyStr opts.resumeId then opts.resumeId else none
    resume_text := if truthyStr opts.resumeId then none
      else some (opts.resumeText.getD "") }

/-- Embedded from `src/frontend/src/services/api.ts` (`fetchLiveJobs`,
body construction): identical except the default `limit` is 30. -/
def buildLiveBodyApi (opts : FetchOpts) : LiveBody :=
  { location := opts.location.getD "US"
    limit := opts.limit.getD 30
    debug := opts.debug.getD false
    resume_id := if truthyStr opts.resumeId then opts.resumeId else none
    resume_text := if truthyStr opts.resumeId then none
      else some (opts.resumeText.getD "") }

/-- The body of a `/jobs/live` response as the clients consume it:
`jobs` is `some` exactly when the body's `jobs` field is a JSON array
(of elements of `α`); `debug` is the optional debug payload, modelled
opaquely as a string. -/
structure LiveRespBody (α : Type) where
  jobs : Option (List α)
  debug : Option String
deriving DecidableEq

/-- An HTTP exchange as the clients see it: the `ok` status flag, the
error text used for a non-ok status, and `json` — the parsed body, or
`none` when the body is not valid JSON. -/
structure HttpResp (α : Type) where
  ok : Bool
  errText : String
  json : Option (LiveRespBody α)
deriving DecidableEq

/-- Embedded from `src/frontend/src/lib/jobs.ts` (`fetchLiveJobs`,
response handling): throw exactly on a non-ok status; otherwise parse
the body (falling back to `{}` when the JSON is invalid), treat a
missing/non-array `jobs` as `[]`, normalize each entry and keep only
jobs with a nonempty `apply_url`; `debug` falls back to null. -/
def fetchLiveJobsResp (resp : HttpResp (Option RawJob)) :
    Except String (List Job × Option String) :=
  if resp.ok then
    let d := resp.json.getD ⟨none, none⟩
    Except.ok (((d.jobs.getD []).map normalizeJob).filter
      (fun j => j.apply_url.length > 0), d.debug)
  else Except.error resp.errText

/-- Embedded from `src/frontend/src/services/api.ts` (`fetchLiveJobs`,
response handling): the same status and JSON handling, but the `jobs`
array is returned as-is (no normalization or filtering). -/
def fetchLiveJobsApi {α : Type} (resp : HttpResp α) :
    Except String (List α × Option String) :=
  if resp.ok then
    let d := resp.json.getD ⟨none, none⟩
    Except.ok (d.jobs.getD [], d.debug)
  else Except.error resp.errText

/-! ## Lemmas and claim theorems -/

lemma ranked_total (a b : ScoredPosting) : Ranked a b ∨ Ranked b a := by
  unfold Ranked
  rcases lt_trichotomy a.match_score b.match_score with h | h | h
  · exact Or.inr (Or.inl h)
  · rcases le_total b.posting.posted_at a.posting.posted_at with h2 | h2
    · exact Or.inl (Or.inr ⟨h, h2⟩)
    · exact Or.inr (Or.inr ⟨h.symm, h2⟩)
  · exact Or.inl (Or.inl h)

lemma ranked_trans {a b c : ScoredPosting}
    (h1 : Ranked a b) (h2 : Ranked b c) : Ranked a c := by
  unfold Ranked at h1 h2 ⊢
  rcases h1 with h1 | ⟨h1, h1'⟩ <;> rcases h2 with h2 | ⟨h2, h2'⟩
  · exact Or.inl (h2.trans h1)
  · exact Or.inl (h2 ▸ h1)
  · exact Or.inl (h1.symm ▸ h2)
  · exact Or.inr ⟨h1.trans h2, h2'.trans h1'⟩

lemma mem_insertRanked {x a : ScoredPosting} {l : List ScoredPosting} :
    a ∈ insertRanked x l ↔ a = x ∨ a ∈ l := by
  induction l with
  | nil => simp [insertRanked]
  | cons y ys ih =>
    by_cases h : Ranked x y
    · rw [insertRanked, if_pos h]
      simp [List.mem_cons]
    · rw [insertRanked, if_neg h]
      simp [List.mem_cons, ih]
      tauto

lemma sorted_insertRanked {l : List ScoredPosting} (x : ScoredPosting)
    (hl : List.Sorted Ranked l) : List.Sorted Ranked (insertRanked x l) := by
  induction l with
  | nil => simp [insertRanked]
  | cons y ys ih =>
    rw [List.sorted_cons] at hl
    by_cases h : Ranked x y
    · rw [insertRanked, if_pos h, List.sorted_cons]
      refine ⟨?_, List.sorted_cons.mpr hl⟩
      intro b hb
      rcases List.mem_cons.mp hb with rfl | hb2
      · exact h
      · exact ranked_trans h (hl.1 b hb2)
    · rw [insertRanked, if_neg h, List.sorted_cons]
      refine ⟨?_, ih hl.2⟩
      intro b hb
      rcases mem_insertRanked.mp hb with rfl | hb2
      · exact (ranked_total b y).resolve_left h
      · exact hl.1 b hb2

lemma sorted_sortRanked (l : List ScoredPosting) :
    List.Sorted Ranked (sortRanked l) := by
  induction l with
  | nil => simp [sortRanked]
  | cons x xs ih => exact sorted_insertRanked x ih

lemma mem_sortRanked {a : ScoredPosting} {l : List ScoredPosting} :
    a ∈ sortRanked l ↔ a ∈ l := by
  induction l with
  | nil => simp [sortRanked]
  | cons x xs ih => simp [sortRanked, mem_insertRanked, ih]

lemma collectValid_eq (valid : Posting → Bool) (n : Nat)
    (l : List ScoredPosting) :
    collectValid valid n l = (l.filter fun s => valid s.posting).take n := by
  induction l generalizing n with
  | nil => cases n <;> rfl
  | cons x xs ih =>
    cases n with
    | zero => by_cases h : valid x.posting <;> simp [collectValid, List.filter_cons, h]
    | succ m =>
      by_cases h : valid x.posting <;> simp [collectValid, List.filter_cons, h, ih]

lemma liveResults_sublist_sorted (resume : Resume)
    (candidates : List (Posting × ℚ)) (valid : Posting → Bool) (debug : Bool)
    (limit : Nat) (threshold : ℚ) :
    List.Sublist (liveResults resume candidates valid debug limit threshold)
      (sortRanked ((candidates.map fun pc =>
          ScoredPosting.mk pc.1 (score resume pc.1 pc.2)).filter
        fun s => threshold ≤ s.match_score)) := by
  unfold liveResults
  by_cases hd : debug
  · simp only [hd, if_true]
    exact List.take_sublist _ _
  · simp only [hd, Bool.false_eq_true, if_false]
    rw [collectValid_eq]
    exact (List.take_sublist _ _).trans (List.filter_sublist _)

lemma filterMap_id_eq_nil {α : Type} (sources : List (Option α))
    (h : sources.all Option.isNone = true) : sources.filterMap id = [] := by
  simp only [List.all_eq_true, Option.isNone_iff_eq_none] at h
  induction sources with
  | nil => rfl
  | cons s ss ih =>
    have hs : s = none := h s (by simp)
    subst hs
    simpa [List.filterMap_cons] using ih fun x hx => h x (by simp [hx])

lemma mergeOne_keys (p : Posting) (acc : List Posting) :
    (mergeOne p acc).map dedupKey
      = if dedupKey p ∈ acc.map dedupKey then acc.map dedupKey
        else acc.map dedupKey ++ [dedupKey p] := by
  induction acc with
  | nil => simp [mergeOne]
  | cons q qs ih =>
    by_cases h : dedupKey q = dedupKey p
    · rw [mergeOne, if_pos h]
      have hkeep : dedupKey (if q.posted_at < p.posted_at then p else q) = dedupKey p := by
        split
        · rfl
        · exact h
      rw [List.map_cons, hkeep, List.map_cons, h,
        if_pos (List.mem_cons_self (dedupKey p) (qs.map dedupKey))]
    · rw [mergeOne, if_neg h]
      have hne : dedupKey p ≠ dedupKey q := fun hc => h hc.symm
      by_cases hm : dedupKey p ∈ qs.map dedupKey
      · rw [List.map_cons, ih, if_pos hm, List.map_cons,
          if_pos (List.mem_cons_of_mem _ hm)]
      · have hnotmem : dedupKey p ∉ (q :: qs).map dedupKey := by
          rw [List.map_cons, List.mem_cons]
          rintro (hc | hc)
          · exact hne hc
          · exact hm hc
        rw [List.map_cons, ih, if_neg hm, if_neg hnotmem, List.map_cons, List.cons_append]

lemma mergeOne_nodup {p : Posting} {acc : List Posting}
    (h : (acc.map dedupKey).Nodup) : ((mergeOne p acc).map dedupKey).Nodup := by
  rw [mergeOne_keys]
  by_cases hm : dedupKey p ∈ acc.map dedupKey
  · rwa [if_pos hm]
  · rw [if_neg hm, List.nodup_append]
    refine ⟨h, List.nodup_singleton _, ?_⟩
    intro a ha hb
    rw [List.mem_singleton] at hb
    subst hb
    exact hm ha

lemma mergeOne_subset {q p : Posting} {acc : List Posting}
    (hq : q ∈ mergeOne p acc) : q = p ∨ q ∈ acc := by
  induction acc with
  | nil => simpa [mergeOne] using hq
  | cons r rs ih =>
    by_cases h : dedupKey r = dedupKey p
    · rw [mergeOne, if_pos h] at hq
      rcases List.mem_cons.mp hq with h1 | h1
      · by_cases hlt : r.posted_at < p.posted_at
        · rw [if_pos hlt] at h1
          exact Or.inl h1
        · rw [if_neg hlt] at h1
          exact Or.inr (by rw [h1]; exact List.mem_cons_self r rs)
      · exact Or.inr (List.mem_cons_of_mem r h1)
    · rw [mergeOne, if_neg h] at hq
      rcases List.mem_cons.mp hq with h1 | h1
      · exact Or.inr (by rw [h1]; exact List.mem_cons_self r rs)
      · rcases ih h1 with h2 | h2
        · exact Or.inl h2
        · exact Or.inr (List.mem_cons_of_mem r h2)

lemma mergeOne_preserve {p : Posting} {acc : List Posting} :
    ∀ q ∈ acc, ∃ q' ∈ mergeOne p acc,
      dedupKey q' = dedupKey q ∧ q.posted_at ≤ q'.posted_at := by
  induction acc with
  | nil => intro q hq; cases hq
  | cons r rs ih =>
    intro q hq
    by_cases h : dedupKey r = dedupKey p
    · rw [mergeOne, if_pos h]
      rcases List.mem_cons.mp hq with rfl | hq2
      · by_cases hlt : q.posted_at < p.posted_at
        · rw [if_pos hlt]
          exact ⟨p, List.mem_cons_self _ _, h.symm, le_of_lt hlt⟩
        · rw [if_neg hlt]
          exact ⟨q, List.mem_cons_self _ _, rfl, le_refl _⟩
      · exact ⟨q, List.mem_cons_of_mem _ hq2, rfl, le_refl _⟩
    · rw [mergeOne, if_neg h]
      rcases List.mem_cons.mp hq with rfl | hq2
      · exact ⟨q, List.mem_cons_self _ _, rfl, le_refl _⟩
      · rcases ih q hq2 with ⟨q', hq', hkey, hle⟩
        exact ⟨q', List.mem_cons_of_mem _ hq', hkey, hle⟩

lemma mergeOne_self (p : Posting) (acc : List Posting) :
    ∃ q ∈ mergeOne p acc, dedupKey q = dedupKey p ∧ p.posted_at ≤ q.posted_at := by
  induction acc with
  | nil =>
    rw [mergeOne]
    exact ⟨p, List.mem_cons_self _ _, rfl, le_refl _⟩
  | cons r rs ih =>
    by_cases h : dedupKey r = dedupKey p
    · rw [mergeOne, if_pos h]
      by_cases hlt : r.posted_at < p.posted_at
      · rw [if_pos hlt]
        exact ⟨p, List.mem_cons_self _ _, rfl, le_refl _⟩
      · rw [if_neg hlt]
        exact ⟨r, List.mem_cons_self _ _, h, le_of_not_lt hlt⟩
    · rw [mergeOne, if_neg h]
      rcases ih with ⟨q, hq, hkey, hle⟩
      exact ⟨q, List.mem_cons_of_mem _ hq, hkey, hle⟩

lemma foldl_merge_nodup (ps : List Posting) :
    ∀ acc : List Posting, (acc.map dedupKey).Nodup →
      ((ps.foldl (fun a p => mergeOne p a) acc).map dedupKey).Nodup := by
  induction ps with
  | nil => intro acc h; simpa using h
  | cons p rest ih =>
    intro acc h
    rw [List.foldl_cons]
    exact ih _ (mergeOne_nodup h)

lemma foldl_merge_subset (ps : List Posting) :
    ∀ (acc : List Posting) (q : Posting),
      q ∈ ps.foldl (fun a p => mergeOne p a) acc → q ∈ acc ∨ q ∈ ps := by
  induction ps with
  | nil => intro acc q h; exact Or.inl (by simpa using h)
  | cons p rest ih =>
    intro acc q h
    rw [List.foldl_cons] at h
    rcases ih _ q h with h1 | h1
    · rcases mergeOne_subset h1 with h2 | h2
      · exact Or.inr (by rw [h2]; exact List.mem_cons_self p rest)
      · exact Or.inl h2
    · exact Or.inr (List.mem_cons_of_mem p h1)

lemma foldl_merge_preserve (ps : List Posting) :
    ∀ (acc : List Posting) (q : Posting), q ∈ acc →
      ∃ q' ∈ ps.foldl (fun a p => mergeOne p a) acc,
        dedupKey q' = dedupKey q ∧ q.posted_at ≤ q'.posted_at := by
  induction ps with
  | nil =>
    intro acc q hq
    exact ⟨q, by simpa using hq, rfl, le_refl _⟩
  | cons p rest ih =>
    intro acc q hq
    rw [List.foldl_cons]
    rcases mergeOne_preserve q hq with ⟨q1, hq1, hkey1, hle1⟩
    rcases ih _ q1 hq1 with ⟨q2, hq2, hkey2, hle2⟩
    exact ⟨q2, hq2, hkey2.trans hkey1, hle1.trans hle2⟩

lemma foldl_merge_dominates (ps : List Posting) :
    ∀ (acc : List Posting) (p : Posting), p ∈ ps →
      ∃ q ∈ ps.foldl (fun a p => mergeOne p a) acc,
        dedupKey q = dedupKey p ∧ p.posted_at ≤ q.posted_at := by
  induction ps with
  | nil => intro acc p hp; cases hp
  | cons p0 rest ih =>
    intro acc p hp
    rw [List.foldl_cons]
    rcases List.mem_cons.mp hp with rfl | hp2
    · rcases mergeOne_self p acc with ⟨q1, hq1, hkey1, hle1⟩
      rcases foldl_merge_preserve rest _ q1 hq1 with ⟨q2, hq2, hkey2, hle2⟩
      exact ⟨q2, hq2, hkey2.trans hkey1, hle1.trans hle2⟩
    · exact ih _ p hp2

lemma upsertStore_keys (p : Posting) (now : Int) (v : Bool)
    (s : List StoredPosting) :
    (upsertStore p now v s).map (fun r => storeKey r.content)
      = if storeKey p ∈ s.map (fun r => storeKey r.content)
        then s.map (fun r => storeKey r.content)
        else s.map (fun r => storeKey r.content) ++ [storeKey p] := by
  induction s with
  | nil => simp [upsertStore]
  | cons r rs ih =>
    by_cases h : storeKey r.content = storeKey p
    · rw [upsertStore, if_pos h]
      have hkeep : storeKey (if r.content = p then
          (⟨r.content, r.cached_at, if v then now else r.last_verified⟩ : StoredPosting)
        else ⟨p, now, if v then now else r.last_verified⟩).content = storeKey p := by
        split
        · exact h
        · rfl
      rw [List.map_cons, hkeep, List.map_cons, h,
        if_pos (List.mem_cons_self (storeKey p) _)]
    · rw [upsertStore, if_neg h]
      have hne : storeKey p ≠ storeKey r.content := fun hc => h hc.symm
      by_cases hm : storeKey p ∈ rs.map (fun r => storeKey r.content)
      · rw [List.map_cons, ih, if_pos hm, List.map_cons,
          if_pos (List.mem_cons_of_mem _ hm)]
      · have hnotmem : storeKey p ∉ (r :: rs).map (fun r => storeKey r.content) := by
          rw [List.map_cons, List.mem_cons]
          rintro (hc | hc)
          · exact hne hc
          · exact hm hc
        rw [List.map_cons, ih, if_neg hm, if_neg hnotmem, List.map_cons,
          List.cons_append]

lemma upsertStore_nodup {p : Posting} {now : Int} {v : Bool}
    {s : List StoredPosting}
    (h : (s.map fun r => storeKey r.content).Nodup) :
    ((upsertStore p now v s).map fun r => storeKey r.content).Nodup := by
  rw [upsertStore_keys]
  by_cases hm : storeKey p ∈ s.map (fun r => storeKey r.content)
  · rwa [if_pos hm]
  · rw [if_neg hm, List.nodup_append]
    refine ⟨h, List.nodup_singleton _, ?_⟩
    intro a ha hb
    rw [List.mem_singleton] at hb
    subst hb
    exact hm ha

lemma upsertStore_key_mem (p : Posting) (now : Int) (v : Bool)
    (s : List StoredPosting) :
    storeKey p ∈ (upsertStore p now v s).map (fun r => storeKey r.content) := by
  rw [upsertStore_keys]
  by_cases hm : storeKey p ∈ s.map (fun r => storeKey r.content)
  · rwa [if_pos hm]
  · rw [if_neg hm]
    exact List.mem_append_right _ (List.mem_singleton_self _)

lemma upsertTimes_nodup_mem (p : Posting) (stamps : List (Int × Bool)) :
    ∀ s : List StoredPosting,
      (s.map fun r => storeKey r.content).Nodup →
      storeKey p ∈ s.map (fun r => storeKey r.content) →
      ((upsertTimes p stamps s).map fun r => storeKey r.content).Nodup
      ∧ storeKey p ∈ (upsertTimes p stamps s).map (fun r => storeKey r.content) := by
  induction stamps with
  | nil => intro s h hm; exact ⟨h, hm⟩
  | cons tv rest ih =>
    intro s h hm
    rw [upsertTimes, List.foldl_cons]
    exact ih _ (upsertStore_nodup h) (upsertStore_key_mem p tv.1 tv.2 s)

lemma upsertStore_content {p : Posting} {now : Int} {v : Bool}
    {s : List StoredPosting}
    (hs : (s.map fun r => storeKey r.content).Nodup) :
    ∀ r ∈ upsertStore p now v s,
      storeKey r.content = storeKey p → r.content = p := by
  induction s with
  | nil =>
    intro r hr _
    rw [upsertStore, List.mem_singleton] at hr
    rw [hr]
  | cons q qs ih =>
    intro r hr hkey
    rw [List.map_cons, List.nodup_cons] at hs
    by_cases h : storeKey q.content = storeKey p
    · rw [upsertStore, if_pos h] at hr
      rcases List.mem_cons.mp hr with rfl | hr2
      · split
        · next hc => exact hc
        · rfl
      · exfalso
        exact hs.1 (h.symm ▸ hkey ▸ List.mem_map_of_mem (fun r => storeKey r.content) hr2)
    · rw [upsertStore, if_neg h] at hr
      rcases List.mem_cons.mp hr with rfl | hr2
      · exact absurd hkey h
      · exact ih hs.2 r hr2 hkey

lemma upsertStore_idem (p : Posting) (t2 : Int) (v2 : Bool) :
    ∀ s1 : List StoredPosting,
      (s1.map fun r => storeKey r.content).Nodup →
      (∀ r ∈ s1, storeKey r.content = storeKey p → r.content = p) →
      storeKey p ∈ s1.map (fun r => storeKey r.content) →
      ∀ r2 ∈ upsertStore p t2 v2 s1,
        storeKey r2.content = storeKey p →
        (∃ r1 ∈ s1, storeKey r1.content = storeKey p ∧ r2.cached_at = r1.cached_at)
        ∧ (v2 = true → r2.last_verified = t2) := by
  intro s1
  induction s1 with
  | nil =>
    intro _ _ hmem
    exact absurd hmem (by simp)
  | cons q qs ih =>
    intro h1 hcontent hmem r2 hr2 hkey2
    rw [List.map_cons, List.nodup_cons] at h1
    by_cases h : storeKey q.content = storeKey p
    · have hqp : q.content = p := hcontent q (List.mem_cons_self _ _) h
      rw [upsertStore, if_pos h, if_pos hqp] at hr2
      rcases List.mem_cons.mp hr2 with rfl | hr2b
      · refine ⟨⟨q, List.mem_cons_self _ _, h, rfl⟩, ?_⟩
        intro hv2
        rw [hv2]
        rfl
      · exfalso
        exact h1.1 (h.symm ▸ hkey2 ▸
          List.mem_map_of_mem (fun r => storeKey r.content) hr2b)
    · rw [upsertStore, if_neg h] at hr2
      rcases List.mem_cons.mp hr2 with rfl | hr2b
      · exact absurd hkey2 h
      · have hmem2 : storeKey p ∈ qs.map (fun r => storeKey r.content) := by
          rw [List.map_cons, List.mem_cons] at hmem
          rcases hmem with hc | hc
          · exact absurd hc.symm h
          · exact hc
        have hres := ih h1.2
          (fun r hr hk => hcontent r (List.mem_cons_of_mem q hr) hk) hmem2 r2 hr2b hkey2
        rcases hres with ⟨⟨r1, hr1, hk1, hca⟩, hlv⟩
        exact ⟨⟨r1, List.mem_cons_of_mem q hr1, hk1, hca⟩, hlv⟩

/-- C5: the Posting Store's upsert is idempotent — starting from any
store with pairwise-distinct dedup keys, after upserting a posting any
number of times the store holds exactly one record for its dedup key;
and for the second upsert of identical content, every record under that
key keeps the `cached_at` some record under the key already had after
the first upsert (no freshness bump) while `last_verified` is refreshed
to the new timestamp when URL validation ran. -/
theorem C5_store_upsert_idempotent (p : Posting) (s : List StoredPosting)
    (t1 t2 : Int) (v1 v2 : Bool) (stamps : List (Int × Bool))
    (hs : (s.map fun r => storeKey r.content).Nodup) :
    ((upsertTimes p stamps (upsertStore p t1 v1 s)).map
        (fun r => storeKey r.content)).count (storeKey p) = 1
    ∧ (∀ r2 ∈ upsertStore p t2 v2 (upsertStore p t1 v1 s),
        storeKey r2.content = storeKey p →
        (∃ r1 ∈ upsertStore p t1 v1 s,
            storeKey r1.content = storeKey p ∧ r2.cached_at = r1.cached_at)
        ∧ (v2 = true → r2.last_verified = t2)) := by
  have h1 : ((upsertStore p t1 v1 s).map fun r => storeKey r.content).Nodup :=
    upsertStore_nodup hs
  have hmem1 : storeKey p ∈ (upsertStore p t1 v1 s).map (fun r => storeKey r.content) :=
    upsertStore_key_mem p t1 v1 s
  constructor
  · obtain ⟨hnd, hmem⟩ := upsertTimes_nodup_mem p stamps _ h1 hmem1
    exact List.count_eq_one_of_mem hnd hmem
  · exact upsertStore_idem p t2 v2 _ h1 (upsertStore_content hs) hmem1

/-- Witness for C5 on a concrete store: upsert the Acme posting at time
10 without validation, re-upsert identical content at time 20 with
validation, then once more at time 30; exactly one record remains, its
`cached_at` stayed at the first write's and `last_verified` moved to 20
on the validated second write. -/
theorem C5_store_upsert_idempotent_witness :
    ((upsertTimes acmeOld [(30, true)] (upsertStore acmeOld 10 false [])).map
        (fun r => storeKey r.content)).count (storeKey acmeOld) = 1
    ∧ (∃ r1 ∈ upsertStore acmeOld 10 false [],
        storeKey r1.content = storeKey acmeOld
          ∧ (⟨acmeOld, 10, 20⟩ : StoredPosting).cached_at = r1.cached_at)
    ∧ ((true : Bool) = true → (⟨acmeOld, 10, 20⟩ : StoredPosting).last_verified = 20) := by
  have happ := C5_store_upsert_idempotent acmeOld [] 10 20 false true
    [(30, true)] (by simp)
  have hmem : (⟨acmeOld, 10, 20⟩ : StoredPosting)
      ∈ upsertStore acmeOld 20 true (upsertStore acmeOld 10 false []) := by decide
  have hcons := happ.2 ⟨acmeOld, 10, 20⟩ hmem rfl
  exact ⟨happ.1, hcons.1, hcons.2⟩

lemma skillOverlapRatio_nonneg (rs ps : Finset String) :
    0 ≤ skillOverlapRatio rs ps := by
  unfold skillOverlapRatio
  positivity

lemma skillOverlapRatio_le_one (rs ps : Finset String) :
    skillOverlapRatio rs ps ≤ 1 := by
  unfold skillOverlapRatio
  rw [div_le_one (by positivity)]
  have h1 : (rs ∩ ps).card ≤ ps.card :=
    Finset.card_le_card (Finset.inter_subset_right)
  exact_mod_cast le_trans h1 (Nat.le_max_right 1 ps.card)

lemma experienceAlignment_nonneg (r p : Option Nat) :
    0 ≤ experienceAlignment r p := by
  rcases r with _ | a <;> rcases p with _ | b
  case some.some =>
    by_cases h : a = b <;> simp [experienceAlignment, h]
  all_goals simp [experienceAlignment]

lemma experienceAlignment_le_one (r p : Option Nat) :
    experienceAlignment r p ≤ 1 := by
  rcases r with _ | a <;> rcases p with _ | b
  case some.some =>
    by_cases h : a = b
    · simp [experienceAlignment, h]
    · simp only [experienceAlignment, h, if_false]
      norm_num
  all_goals
    simp only [experienceAlignment]
    norm_num

lemma score_nonneg (resume : Resume) (p : Posting) (c : ℚ) (hc : 0 ≤ c) :
    0 ≤ score resume p c := by
  unfold score
  have h1 := skillOverlapRatio_nonneg resume.skills p.skills
  have h2 := experienceAlignment_nonneg resume.seniority p.seniority
  linarith

lemma score_le_one (resume : Resume) (p : Posting) (c : ℚ) (hc : c ≤ 1) :
    score resume p c ≤ 1 := by
  unfold score
  have h1 := skillOverlapRatio_le_one resume.skills p.skills
  have h2 := experienceAlignment_le_one resume.seniority p.seniority
  linarith

/-- C1: for every resume and posting with both embeddings available (their
cosine similarity `c`), the Scorer returns
`0.6·c + 0.3·skill_overlap_ratio + 0.1·experience_alignment`, where
the skill-overlap ratio is `|resume.skills ∩ posting.skills| /
max(1, |posting.skills|)`, experience alignment lies in [0,1] and equals
1/2 when a seniority signal is missing; for resume skills {python, react},
a posting requiring {python, django} has ratio 1/2 and one requiring
{python, react, aws} has ratio 2/3. -/
theorem C1_scorer_formula :
    (∀ (resume : Resume) (p : Posting) (c : ℚ),
        score resume p c =
          6/10 * c
          + 3/10 * (((resume.skills ∩ p.skills).card : ℚ)
              / ((max 1 p.skills.card : ℕ) : ℚ))
          + 1/10 * experienceAlignment resume.seniority p.seniority)
    ∧ (∀ r p : Option Nat,
        0 ≤ experienceAlignment r p ∧ experienceAlignment r p ≤ 1)
    ∧ (∀ p : Option Nat,
        experienceAlignment none p = 1/2 ∧ experienceAlignment p none = 1/2)
    ∧ skillOverlapRatio {"python", "react"} {"python", "django"} = 1/2
    ∧ skillOverlapRatio {"python", "react"} {"python", "react", "aws"} = 2/3 := by
  refine ⟨fun resume p c => rfl,
    fun r p => ⟨experienceAlignment_nonneg r p, experienceAlignment_le_one r p⟩,
    fun p => ⟨rfl, by rcases p with _ | a <;> rfl⟩, ?_, ?_⟩
  · have h1 : (({"python", "react"} : Finset String) ∩ {"python", "django"}).card
        = 1 := by simp
    have h2 : ({"python", "django"} : Finset String).card = 2 := by simp
    rw [skillOverlapRatio, h1, h2]
    norm_num
  · have h1 : (({"python", "react"} : Finset String)
        ∩ {"python", "react", "aws"}).card = 2 := by simp
    have h2 : ({"python", "react", "aws"} : Finset String).card = 3 := by simp
    rw [skillOverlapRatio, h1, h2]
    norm_num

/-- C6: invoking the Cache Refresher while a prior run is still in
progress performs no refresh work: it reports the
"skipped, previous run active" outcome (a reported outcome distinct from
`started`, not an error), and leaves the entire state — in particular the
Posting Store — exactly as the in-flight run alone would produce it. -/
theorem C6_refresh_single_flight
    (doRun : List StoredPosting → List StoredPosting) (s : RefresherState)
    (h : s.running = true) :
    invokeRefresh doRun s = (RefreshOutcome.skippedAlreadyRunning, s)
    ∧ (invokeRefresh doRun s).2.store = s.store
    ∧ RefreshOutcome.skippedAlreadyRunning ≠ RefreshOutcome.started := by
  have heq : invokeRefresh doRun s = (RefreshOutcome.skippedAlreadyRunning, s) := by
    unfold invokeRefresh
    rw [if_pos h]
  exact ⟨heq, by rw [heq], by decide⟩

/-- Witness for C6: a refresher already running over a one-record store;
the second invocation is skipped and the store is untouched, even though
the supplied refresh work would have cleared the store. -/
theorem C6_refresh_single_flight_witness :
    invokeRefresh (fun _ => []) ⟨true, [⟨acmeOld, 10, 10⟩]⟩
      = (RefreshOutcome.skippedAlreadyRunning, ⟨true, [⟨acmeOld, 10, 10⟩]⟩)
    ∧ (invokeRefresh (fun _ => []) ⟨true, [⟨acmeOld, 10, 10⟩]⟩).2.store
      = [⟨acmeOld, 10, 10⟩]
    ∧ RefreshOutcome.skippedAlreadyRunning ≠ RefreshOutcome.started :=
  C6_refresh_single_flight (fun _ => []) ⟨true, [⟨acmeOld, 10, 10⟩]⟩ rfl

/-- C3: the Aggregator's merge collapses postings with equal
whitespace/case-normalized title, company and location into exactly one
output record (output dedup keys are pairwise distinct, every output
record is an input record, and every input is dominated by an output of
the same key with posted_at no older); concretely, the two "Backend
Engineer"/"Acme Corp"/"Remote" postings from different sources dated
2024-01-01 and 2024-01-05 collapse to the one dated 2024-01-05. -/
theorem C3_aggregator_merges_duplicates (ps : List Posting) :
    ((aggregate ps).map dedupKey).Nodup
    ∧ (∀ q ∈ aggregate ps, q ∈ ps)
    ∧ (∀ p ∈ ps, ∃ q ∈ aggregate ps,
        dedupKey q = dedupKey p ∧ p.posted_at ≤ q.posted_at)
    ∧ acmeOld.source_name ≠ acmeNew.source_name
    ∧ dedupKey acmeOld = dedupKey acmeNew
    ∧ aggregate [acmeOld, acmeNew] = [acmeNew]
    ∧ acmeNew.posted_at = 20240105 := by
  refine ⟨foldl_merge_nodup ps [] (by simp), ?_, ?_, ?_, ?_, ?_, ?_⟩
  · intro q hq
    rcases foldl_merge_subset ps [] q hq with h | h
    · exact absurd h (List.not_mem_nil q)
    · exact h
  · intro p hp
    exact foldl_merge_dominates ps [] p hp
  · decide
  · decide
  · decide
  · decide

/-- Witness for C3: the merged output of the concrete two-source Acme
scenario is itself drawn from the input postings. -/
theorem C3_aggregator_merges_duplicates_witness :
    acmeNew ∈ [acmeOld, acmeNew] :=
  (C3_aggregator_merges_duplicates [acmeOld, acmeNew]).2.1 acmeNew (by decide)

/-- C2: every `MatchResult` returned by a live matching request has
`match_score` in [0,1] (given that each candidate's embedding cosine
similarity lies in [0,1]), and the returned list is sorted
non-increasing by `match_score`, ties broken by `posted_at` descending
(the `Ranked` order). -/
theorem C2_results_bounded_and_sorted (resume : Resume)
    (candidates : List (Posting × ℚ)) (valid : Posting → Bool) (debug : Bool)
    (limit : Nat) (threshold : ℚ)
    (hc : ∀ pc ∈ candidates, 0 ≤ pc.2 ∧ pc.2 ≤ 1) :
    (∀ r ∈ liveResults resume candidates valid debug limit threshold,
        0 ≤ r.match_score ∧ r.match_score ≤ 1)
    ∧ List.Sorted Ranked (liveResults resume candidates valid debug limit threshold) := by
  have hsub := liveResults_sublist_sorted resume candidates valid debug limit threshold
  constructor
  · intro r hr
    have h1 : r ∈ sortRanked ((candidates.map fun pc =>
        ScoredPosting.mk pc.1 (score resume pc.1 pc.2)).filter
          fun s => threshold ≤ s.match_score) := hsub.subset hr
    rw [mem_sortRanked] at h1
    have h2 := (List.mem_filter.mp h1).1
    rcases List.mem_map.mp h2 with ⟨pc, hpc, rfl⟩
    exact ⟨score_nonneg resume pc.1 pc.2 (hc pc hpc).1,
      score_le_one resume pc.1 pc.2 (hc pc hpc).2⟩
  · exact List.Pairwise.sublist hsub (sorted_sortRanked _)

/-- Witness for C2 at a concrete request: one candidate with cosine
similarity 1/2, validation always passing. -/
theorem C2_results_bounded_and_sorted_witness :
    (∀ r ∈ liveResults ⟨∅, none⟩
        [(mkPosting "greenhouse" "1" "Backend Engineer" "Acme Corp" "Remote" "https://a" 5, 1/2)]
        (fun _ => true) false 10 0,
      0 ≤ r.match_score ∧ r.match_score ≤ 1)
    ∧ List.Sorted Ranked (liveResults ⟨∅, none⟩
        [(mkPosting "greenhouse" "1" "Backend Engineer" "Acme Corp" "Remote" "https://a" 5, 1/2)]
        (fun _ => true) false 10 0) :=
  C2_results_bounded_and_sorted ⟨∅, none⟩ _ (fun _ => true) false 10 0
    (by
      intro pc hpc
      rw [List.mem_singleton] at hpc
      subst hpc
      norm_num)

/-- C4: outside debug/bypass mode, every returned `MatchResult`'s
`apply_url` passed validation in this request cycle, and the returned
list is the `limit`-prefix of the validated postings in rank order — so
postings failing validation are excluded and replaced by the
next-highest-scored postings that do validate. -/
theorem C4_only_validated_results (resume : Resume)
    (candidates : List (Posting × ℚ)) (valid : Posting → Bool)
    (limit : Nat) (threshold : ℚ) :
    (∀ r ∈ liveResults resume candidates valid false limit threshold,
        valid r.posting = true)
    ∧ liveResults resume candidates valid false limit threshold
        = ((sortRanked ((candidates.map fun pc =>
              ScoredPosting.mk pc.1 (score resume pc.1 pc.2)).filter
                fun s => threshold ≤ s.match_score)).filter
            fun s => valid s.posting).take limit := by
  have heq : liveResults resume candidates valid false limit threshold
      = ((sortRanked ((candidates.map fun pc =>
            ScoredPosting.mk pc.1 (score resume pc.1 pc.2)).filter
              fun s => threshold ≤ s.match_score)).filter
          fun s => valid s.posting).take limit := by
    unfold liveResults
    simp only [Bool.false_eq_true, if_false]
    exact collectValid_eq valid limit _
  refine ⟨?_, heq⟩
  intro r hr
  rw [heq] at hr
  exact (List.mem_filter.mp ((List.take_sublist _ _).subset hr)).2

/-- Witness for C4: in the concrete request whose top-scored posting has
a dead apply link, the next-highest valid posting is returned and its
link indeed validates (with the fallback list computed explicitly). -/
theorem C4_only_validated_results_witness :
    deadValid pLiveB = true
    ∧ deadValid pDead = false
    ∧ liveResults ⟨∅, none⟩ [(pDead, 1), (pLiveB, 1/2), (pLiveC, 0)]
        deadValid false 2 0
      = [⟨pLiveB, 7/20⟩, ⟨pLiveC, 1/20⟩] := by
  have heval : liveResults ⟨∅, none⟩ [(pDead, 1), (pLiveB, 1/2), (pLiveC, 0)]
      deadValid false 2 0 = [⟨pLiveB, 7/20⟩, ⟨pLiveC, 1/20⟩] := by
    norm_num +decide [liveResults, score, skillOverlapRatio, experienceAlignment,
      sortRanked, insertRanked, collectValid, Ranked, mkPosting,
      pDead, pLiveB, pLiveC, deadValid]
  refine ⟨?_, by decide, heval⟩
  have hmem : (⟨pLiveB, 7/20⟩ : ScoredPosting) ∈ liveResults ⟨∅, none⟩
      [(pDead, 1), (pLiveB, 1/2), (pLiveC, 0)] deadValid false 2 0 := by
    rw [heval]
    exact List.mem_cons_self _ _
  exact (C4_only_validated_results ⟨∅, none⟩
    [(pDead, 1), (pLiveB, 1/2), (pLiveC, 0)] deadValid 2 0).1 _ hmem

/-- C8: on total source outage the Orchestrator still proceeds to
scoring over the (possibly stale) Posting Store cache and returns a
result list; with no usable cache it returns the explicit
`noResultsAvailable` outcome, which is distinguishable from the
ran-fine-but-empty `results []` outcome. -/
theorem C8_total_outage (resume : Resume)
    (sources : List (Option (List (Posting × ℚ))))
    (cache : List (Posting × ℚ)) (valid : Posting → Bool) (debug : Bool)
    (limit : Nat) (threshold : ℚ)
    (hall : sources.all Option.isNone = true) :
    (cache ≠ [] →
      orchestrate resume sources cache valid debug limit threshold
        = LiveOutcome.results (liveResults resume cache valid debug limit threshold))
    ∧ (cache = [] →
      orchestrate resume sources cache valid debug limit threshold
        = LiveOutcome.noResultsAvailable)
    ∧ LiveOutcome.noResultsAvailable ≠ LiveOutcome.results [] := by
  have hfetch : (sources.filterMap id).flatten = ([] : List (Posting × ℚ)) := by
    rw [filterMap_id_eq_nil sources hall]
    rfl
  refine ⟨?_, ?_, by simp⟩
  · intro hne
    unfold orchestrate
    have hcache : cache.isEmpty = false := by
      rcases cache with _ | ⟨c, cs⟩
      · exact absurd rfl hne
      · rfl
    rw [hfetch]
    simp [hall, hcache]
  · intro hnil
    subst hnil
    unfold orchestrate
    simp [hall]

/-- Witness for C8 at a concrete total outage: two failed sources and a
one-posting cache, and the same with an empty cache. -/
theorem C8_total_outage_witness :
    ([(mkPosting "lever" "2" "Data Engineer" "Acme Corp" "Remote" "https://b" 3, (1:ℚ)/2)] ≠ [] →
      orchestrate ⟨∅, none⟩ [none, none]
          [(mkPosting "lever" "2" "Data Engineer" "Acme Corp" "Remote" "https://b" 3, 1/2)]
          (fun _ => true) false 10 0
        = LiveOutcome.results (liveResults ⟨∅, none⟩
            [(mkPosting "lever" "2" "Data Engineer" "Acme Corp" "Remote" "https://b" 3, 1/2)]
            (fun _ => true) false 10 0))
    ∧ (([] : List (Posting × ℚ)) = [] →
      orchestrate ⟨∅, none⟩ [none, none] [] (fun _ => true) false 10 0
        = LiveOutcome.noResultsAvailable)
    ∧ LiveOutcome.noResultsAvailable ≠ LiveOutcome.results [] :=
  ⟨(C8_total_outage ⟨∅, none⟩ [none, none] _ (fun _ => true) false 10 0 rfl).1,
   (C8_total_outage ⟨∅, none⟩ [none, none] [] (fun _ => true) false 10 0 rfl).2.1,
   (C8_total_outage ⟨∅, none⟩ [none, none] [] (fun _ => true) false 10 0 rfl).2.2⟩

/-- C9: `normalizeJob` is a total deterministic function of the embedded
raw value (including the null/undefined input `none`): its `apply_url`
equals the first present value among the raw `apply_url`, `applyUrl`,
`url`, `job_url`, `jobUrl` fields, or "" if none is present, and
`title`, `company`, `location`, `description` default to "" when their
contributing raw fields are absent. -/
theorem C9_normalizeJob_total_default (raw : Option RawJob) :
    (normalizeJob raw).apply_url
      = (firstSome [rawGet raw RawJob.apply_url, rawGet raw RawJob.applyUrl,
          rawGet raw RawJob.url, rawGet raw RawJob.job_url,
          rawGet raw RawJob.jobUrl]).getD ""
    ∧ (rawGet raw RawJob.title = none → (normalizeJob raw).title = "")
    ∧ (rawGet raw RawJob.company = none → rawGet raw RawJob.organization = none →
        (normalizeJob raw).company = "")
    ∧ (rawGet raw RawJob.location = none → rawGet raw RawJob.locations = none →
        (normalizeJob raw).location = "")
    ∧ (rawGet raw RawJob.description = none → (normalizeJob raw).description = "")
    ∧ normalizeJob none
      = { id := none, title := "", company := "", location := "",
          description := "", job_type := none, salary_min := none,
          salary_max := none, remote := none, apply_url := "", source := none } := by
  refine ⟨?_, ?_, ?_, ?_, ?_, rfl⟩
  · simp [normalizeJob, firstSome, jsOr]
  · intro h
    simp [normalizeJob, h]
  · intro h1 h2
    simp [normalizeJob, jsOr, h1, h2]
  · intro h1 h2
    simp [normalizeJob, jsOr, h1, h2]
  · intro h
    simp [normalizeJob, h]

/-- Witness for C9 at two concrete inputs: the null raw value yields all
defaults, and a raw value carrying only `url` surfaces it as
`apply_url`. -/
theorem C9_normalizeJob_total_default_witness :
    (normalizeJob none).title = ""
    ∧ (normalizeJob (some ⟨none, none, none, none, none, none, none, none,
        none, none, none, none, none, none, none, some "https://u", none,
        none, none, none⟩)).apply_url = "https://u" := by
  constructor
  · exact (C9_normalizeJob_total_default none).2.1 rfl
  · rw [(C9_normalizeJob_total_default (some ⟨none, none, none, none, none,
      none, none, none, none, none, none, none, none, none, none,
      some "https://u", none, none, none, none⟩)).1]
    rfl

/-- C7 counterexample: the claim says the body carries `resume_id`
whenever a resume id is supplied; but supplying the empty string — a
supplied resume id — fails the JS truthiness test, so the built body
carries `resume_text` and no `resume_id` (both implementations). -/
theorem C7_counterexample :
    (⟨some "", some "my resume", none, none, none⟩ : FetchOpts).resumeId.isSome = true
    ∧ (buildLiveBody ⟨some "", some "my resume", none, none, none⟩).resume_id = none
    ∧ (buildLiveBody ⟨some "", some "my resume", none, none, none⟩).resume_text
        = some "my resume"
    ∧ (buildLiveBodyApi ⟨some "", some "my resume", none, none, none⟩).resume_id
        = none :=
  ⟨rfl, rfl, rfl, rfl⟩

/-- C7 (amended): every body built by either client `fetchLiveJobs`
contains exactly one of `resume_id`/`resume_text` — `resume_id` exactly
when a nonempty (JS-truthy) resume id is supplied, otherwise
`resume_text` defaulting to "" — together with the always-present
`location` (default "US"), `limit` (default 40 in lib/jobs.ts, 30 in
services/api.ts) and `debug` (false when absent) fields. -/
theorem C7_live_body_shape (opts : FetchOpts) :
    ((buildLiveBody opts).resume_id.isSome
        = !(buildLiveBody opts).resume_text.isSome)
    ∧ (∀ s, opts.resumeId = some s → s ≠ "" →
        (buildLiveBody opts).resume_id = some s
        ∧ (buildLiveBody opts).resume_text = none)
    ∧ (truthyStr opts.resumeId = false →
        (buildLiveBody opts).resume_id = none
        ∧ (buildLiveBody opts).resume_text = some (opts.resumeText.getD ""))
    ∧ (buildLiveBody opts).location = opts.location.getD "US"
    ∧ (buildLiveBody opts).limit = opts.limit.getD 40
    ∧ (buildLiveBody opts).debug = opts.debug.getD false
    ∧ (buildLiveBodyApi opts).limit = opts.limit.getD 30
    ∧ (buildLiveBodyApi opts).resume_id = (buildLiveBody opts).resume_id
    ∧ (buildLiveBodyApi opts).resume_text = (buildLiveBody opts).resume_text
    ∧ (buildLiveBodyApi opts).location = (buildLiveBody opts).location
    ∧ (buildLiveBodyApi opts).debug = (buildLiveBody opts).debug := by
  refine ⟨?_, ?_, ?_, rfl, rfl, rfl, rfl, rfl, rfl, rfl, rfl⟩
  · rcases hid : opts.resumeId with _ | s
    · simp [buildLiveBody, truthyStr, hid]
    · by_cases hs : s = ""
      · simp [buildLiveBody, truthyStr, hid, hs]
      · simp [buildLiveBody, truthyStr, hid, hs]
  · intro s hs hne
    have ht : truthyStr (some s) = true := by
      show (!(s == "")) = true
      simp [hne]
    simp [buildLiveBody, hs, ht]
  · intro h
    simp [buildLiveBody, h]

/-- Witness for C7 (amended) at a concrete nonempty resume id. -/
theorem C7_live_body_shape_witness :
    (buildLiveBody ⟨some "r-42", none, none, none, none⟩).resume_id = some "r-42"
    ∧ (buildLiveBody ⟨some "r-42", none, none, none, none⟩).resume_text = none :=
  (C7_live_body_shape ⟨some "r-42", none, none, none, none⟩).2.1 "r-42" rfl
    (by decide)

/-- C10 counterexample: an ok response whose body is valid JSON with a
non-array `jobs` field but a present `debug` field yields the empty
jobs list together with a NON-null debug — the claim's "(and null
debug)" fails on the jobs.ts implementation (and likewise on api.ts). -/
theorem C10_counterexample :
    fetchLiveJobsResp ⟨true, "", some ⟨none, some "dbg"⟩⟩
      = Except.ok ([], some "dbg")
    ∧ fetchLiveJobsApi (⟨true, "", some ⟨none, some "dbg"⟩⟩ : HttpResp Nat)
      = Except.ok ([], some "dbg")
    ∧ some "dbg" ≠ (none : Option String) :=
  ⟨rfl, rfl, by decide⟩

/-- C10 (amended): both client `fetchLiveJobs` implementations throw
exactly when the HTTP status is not ok (with the response's error
text); an ok response whose body is not valid JSON yields the empty
jobs list and null debug; an ok response whose `jobs` field is
missing or not an array yields the empty jobs list with the body's
`debug` field (null when absent) — a successful HTTP exchange never
raises on a malformed body. -/
theorem C10_malformed_body_handling {α : Type} (resp : HttpResp (Option RawJob))
    (respA : HttpResp α) :
    ((fetchLiveJobsResp resp).isOk = resp.ok)
    ∧ ((fetchLiveJobsApi respA).isOk = respA.ok)
    ∧ (resp.ok = false → fetchLiveJobsResp resp = Except.error resp.errText)
    ∧ (respA.ok = false → fetchLiveJobsApi respA = Except.error respA.errText)
    ∧ (resp.ok = true → resp.json = none →
        fetchLiveJobsResp resp = Except.ok ([], none))
    ∧ (∀ dbg, resp.ok = true → resp.json = some ⟨none, dbg⟩ →
        fetchLiveJobsResp resp = Except.ok ([], dbg))
    ∧ (respA.ok = true → respA.json = none →
        fetchLiveJobsApi respA = Except.ok ([], none))
    ∧ (∀ dbg, respA.ok = true → respA.json = some ⟨none, dbg⟩ →
        fetchLiveJobsApi respA = Except.ok ([], dbg)) := by
  refine ⟨?_, ?_, ?_, ?_, ?_, ?_, ?_, ?_⟩
  · rcases hok : resp.ok with _ | _ <;>
      simp [fetchLiveJobsResp, hok, Except.isOk, Except.toBool]
  · rcases hok : respA.ok with _ | _ <;>
      simp [fetchLiveJobsApi, hok, Except.isOk, Except.toBool]
  · intro h
    simp [fetchLiveJobsResp, h]
  · intro h
    simp [fetchLiveJobsApi, h]
  · intro h hj
    simp [fetchLiveJobsResp, h, hj]
  · intro dbg h hj
    simp [fetchLiveJobsResp, h, hj]
  · intro h hj
    simp [fetchLiveJobsApi, h, hj]
  · intro dbg h hj
    simp [fetchLiveJobsApi, h, hj]

/-- Witness for C10 (amended) at concrete responses: a failing status
throws with its error text; an ok status with an unparseable body
yields `([], null)`; an ok status with a non-array `jobs` but a debug
payload yields `([], debug)`. -/
theorem C10_malformed_body_handling_witness :
    fetchLiveJobsResp ⟨false, "boom", none⟩ = Except.error "boom"
    ∧ fetchLiveJobsResp ⟨true, "", none⟩ = Except.ok ([], none)
    ∧ fetchLiveJobsApi (⟨true, "", some ⟨none, some "d"⟩⟩ : HttpResp Nat)
      = Except.ok ([], some "d") :=
  ⟨(C10_malformed_body_handling ⟨false, "boom", none⟩
      (⟨true, "", some ⟨none, some "d"⟩⟩ : HttpResp Nat)).2.2.1 rfl,
   (C10_malformed_body_handling ⟨true, "", none⟩
      (⟨true, "", some ⟨none, some "d"⟩⟩ : HttpResp Nat)).2.2.2.2.1 rfl rfl,
   (C10_malformed_body_handling ⟨true, "", none⟩
      (⟨true, "", some ⟨none, some "d"⟩⟩ : HttpResp Nat)).2.2.2.2.2.2.2 (some "d") rfl rfl⟩

end JobMatcher
